import Mathlib

/-!
Verification of the Mastermind game engine (`mastermind_game.py`).

The embedding models the evaluation algorithm and the turn state machine of
`MastermindGame`: colors are the Tk color strings of the source, the secret
code and a submitted row are `List String`, and the mutable engine attributes
(`current_row`, `secret_code`, `start_time`, button states, feedback pegs)
form the `Engine` record.  Python exceptions that would escape the handler
(indexing errors, arithmetic on `None`) are modelled by `Option`: a `none`
result is a crash of the handler.
-/

namespace Mastermind

/-- `self.ROWS`: total rows in the Mastermind game. -/
def ROWS : Nat := 15

/-- `self.COLUMNS`: total columns in the Mastermind game. -/
def COLUMNS : Nat := 4

/-- `self.COLORS`: the available colors. -/
def COLORS : List String := ["red", "blue", "pink", "yellow", "green", "cyan"]

/-- Python `lst.index(x)` followed by `lst.pop(idx)`: removes the first
occurrence of `x` by value; `none` models the `ValueError` raised by
`index` when `x` is absent. -/
def removeFirst (x : String) (l : List String) : Option (List String) :=
  if x ∈ l then some (l.erase x) else none

/-- Output of the first evaluation loop of `handle_submit` (lines 177-188):
`exact` is `correct_color_count`, `tracker` is `correct_color_tracker`,
`remaining` is `remaining_colors`, and `errors` counts executions of the
`except ValueError` diagnostic branch. -/
structure FPOut where
  exact : Nat
  tracker : List Bool
  remaining : List String
  errors : Nat
deriving Repr, DecidableEq

/-- First evaluation loop of `handle_submit`: for each position, if the
submitted color equals the secret color, increment `correct_color_count`
and try to remove that color value from `remaining_colors`, recording the
position in the tracker on success; a failed removal runs the `except`
branch (tracker not set, nothing removed). -/
def firstPass : List String → List String → List String → FPOut
  | g :: gs, s :: ss, rem =>
    if g = s then
      match removeFirst g rem with
      | some rem' =>
        let o := firstPass gs ss rem'
        ⟨o.exact + 1, true :: o.tracker, o.remaining, o.errors⟩
      | none =>
        let o := firstPass gs ss rem
        ⟨o.exact + 1, false :: o.tracker, o.remaining, o.errors + 1⟩
    else
      let o := firstPass gs ss rem
      ⟨o.exact, false :: o.tracker, o.remaining, o.errors⟩
  | _, _, rem => ⟨0, [], rem, 0⟩

/-- Output of the second evaluation loop (lines 190-201): `colorOnly` is
`correct_location_color_count` (the count of correct colors in incorrect
places), `remaining` is `remaining_colors`, `errors` counts executions of
the `except ValueError` branch. -/
structure SPOut where
  colorOnly : Nat
  remaining : List String
  errors : Nat
deriving Repr, DecidableEq

/-- Second evaluation loop of `handle_submit`: skip positions marked in the
tracker; otherwise, if the submitted color is present in `remaining_colors`,
increment the count and remove one occurrence. -/
def secondPass : List String → List Bool → List String → SPOut
  | g :: gs, t :: ts, rem =>
    if t then secondPass gs ts rem
    else if g ∈ rem then
      match removeFirst g rem with
      | some rem' =>
        let o := secondPass gs ts rem'
        ⟨o.colorOnly + 1, o.remaining, o.errors⟩
      | none =>
        let o := secondPass gs ts rem
        ⟨o.colorOnly + 1, o.remaining, o.errors + 1⟩
    else secondPass gs ts rem
  | _, _, rem => ⟨0, rem, 0⟩

/-- The score computed by the evaluation section of `handle_submit`
(lines 170-201).  `exact` is `correct_color_count` (right color, right
position), `colorOnly` is `correct_location_color_count` (right color,
wrong position), `errors` counts diagnostic prints from either loop. -/
structure Score where
  exact : Nat
  colorOnly : Nat
  errors : Nat
deriving Repr, DecidableEq

/-- Evaluation of a submission against the secret code: the working list
`remaining_colors` starts as a copy of the secret (`self.secret_code[:]`),
then the two loops run in order. -/
def evaluate (secret guess : List String) : Score :=
  let fp := firstPass guess secret secret
  let sp := secondPass guess fp.tracker fp.remaining
  ⟨fp.exact, sp.colorOnly, fp.errors + sp.errors⟩

/-- Modelled from the spec (§4.2, scoring steps 1-2): the first pass of the
reference algorithm, which marks position `i` as settled whenever
`guess[i] == secret[i]` and removes one occurrence of that value from the
working copy, with no error path. -/
structure SpecFP where
  exact : Nat
  settled : List Bool
  remaining : List String
deriving Repr, DecidableEq

/-- Modelled from the spec (§4.2, scoring step 2): first pass in position
order; on a positional match, increment `exactMatches`, mark the position
settled, and remove one occurrence of the color value from `remaining`. -/
def specFirstPass : List String → List String → List String → SpecFP
  | g :: gs, s :: ss, rem =>
    if g = s then
      let o := specFirstPass gs ss (rem.erase g)
      ⟨o.exact + 1, true :: o.settled, o.remaining⟩
    else
      let o := specFirstPass gs ss rem
      ⟨o.exact, false :: o.settled, o.remaining⟩
  | _, _, rem => ⟨0, [], rem⟩

/-- Modelled from the spec (§4.2, scoring step 3): second pass in position
order, skipping settled positions; if `guess[i]` is present in `remaining`,
increment `colorMatches` and remove one occurrence. -/
def specSecondPass : List String → List Bool → List String → Nat × List String
  | g :: gs, t :: ts, rem =>
    if t then specSecondPass gs ts rem
    else if g ∈ rem then
      let o := specSecondPass gs ts (rem.erase g)
      (o.1 + 1, o.2)
    else specSecondPass gs ts rem
  | _, _, rem => (0, rem)

/-- Modelled from the spec (§4.2, scoring steps 1-4): the two-pass reference
scoring algorithm, returning `(exactMatches, colorMatches)`. -/
def specScore (secret guess : List String) : Nat × Nat :=
  let f := specFirstPass guess secret secret
  (f.exact, (specSecondPass guess f.settled f.remaining).1)

/-- The secret values at positions where the guess matches the secret
(the color values removed by the first pass, in order). -/
def matchedList : List String → List String → List String
  | g :: gs, s :: ss =>
    if g = s then s :: matchedList gs ss else matchedList gs ss
  | _, _ => []

/-- The guess values at positions where the guess differs from the secret
(the values examined by the second pass, in order). -/
def unmatchedList : List String → List String → List String
  | g :: gs, s :: ss =>
    if g = s then unmatchedList gs ss else g :: unmatchedList gs ss
  | _, _ => []

/-- Sequential conditional removal: for each value in turn, if it is present
in the pool, count it and remove one occurrence.  This is the action of the
second pass on the unsettled guess values. -/
def removeCount : List String → List String → Nat × List String
  | [], rem => (0, rem)
  | u :: us, rem =>
    if u ∈ rem then
      let o := removeCount us (rem.erase u)
      (o.1 + 1, o.2)
    else removeCount us rem
/-- The mutable attributes of a `MastermindGame` instance that the engine
operations read or write.  `currentRow`, `secretCode` and `startTime` are
`None` after `__init__` (hence `Option`); `startEnabled` / `submitEnabled`
are the Tk states of the START and SUBMIT buttons; `feedback` is the color
of every peg in `feedback_label_list` (one inner list per row, top to
bottom). -/
structure Engine where
  currentRow : Option Nat
  secretCode : Option (List String)
  startTime : Option Int
  startEnabled : Bool
  submitEnabled : Bool
  feedback : List (List String)
deriving Repr, DecidableEq

/-- The engine attributes after `__init__` / `initialize_gui`: nothing
started, START active, SUBMIT disabled, every feedback peg black
(each of the `ROWS` rows gets a frame of 4 labels). -/
def initialEngine : Engine :=
  { currentRow := none
    secretCode := none
    startTime := none
    startEnabled := true
    submitEnabled := false
    feedback := List.replicate ROWS (List.replicate 4 "black") }

/-- `increment_current_row`, restricted to the `current_row` attribute: `None`
is initialized to 0, otherwise the row is incremented (row activation and
deactivation only touch grid-button widgets). -/
def incrementCurrentRow : Option Nat → Option Nat
  | none => some 0
  | some k => some (k + 1)

/-- `start_game`, with the randomness of `random.choice(self.COLORS)`
supplied as an oracle `choice` giving the chosen palette index for each
loop iteration: disables START, enables SUBMIT, generates the secret code
as `COLUMNS` independent choices from `COLORS`, activates the first row via
`increment_current_row`, and records the start time. -/
def start_game (e : Engine) (choice : Nat → Fin COLORS.length) (now : Int) : Engine :=
  { e with
    startEnabled := false
    submitEnabled := true
    secretCode := some ((List.range COLUMNS).map fun i => COLORS.get (choice i))
    currentRow := incrementCurrentRow e.currentRow
    startTime := some now }

/-- One of the `while` loops updating the feedback pegs (lines 213-222):
starting at index `idx`, color `count` consecutive labels with `color`.
`none` models the `IndexError` raised by indexing the 4-tuple of labels
past its end. -/
def paintLabels (color : String) : Nat → Nat → List String → Option (List String)
  | 0, _, labels => some labels
  | count + 1, idx, labels =>
    if idx < labels.length then
      paintLabels color count (idx + 1) (labels.set idx color)
    else none

/-- The feedback-peg update of `handle_submit`: color the first
`exact` pegs red, then the next `colorOnly` pegs white, the running index
`current_label` continuing from one loop into the next. -/
def updateFeedback (exact colorOnly : Nat) (labels : List String) :
    Option (List String) :=
  (paintLabels "red" exact 0 labels).bind (paintLabels "white" colorOnly exact)

/-- The observable outcome of one `handle_submit` run: the invalid-submission
error box, the win dialog (attempt count and elapsed seconds), the loss
dialog (revealing the secret code), or a normal continuation to the next
row.  `gameOver` is the outcome of pressing a disabled SUBMIT button: the
handler does not run, which at the engine boundary is the rejection of a
submission after a terminal state. -/
inductive SubmitResult where
  | invalid
  | won (attempts : Nat) (elapsed : Int)
  | lost (code : List String)
  | continued
  | gameOver
deriving Repr, DecidableEq

/-- `handle_submit`, with the submitted row's button colors passed as
`guess` (the source reads them from the grid slice for the current row,
which always has `COLUMNS` entries) and the wall clock passed as `now`.
Steps, in source order: compute `actual_row` (crashes on a `None`
`current_row`), validate that every submitted color is a recognized color
(otherwise show the error box and return with nothing changed), evaluate
the submission against the secret code (crashes on a `None` secret),
update the feedback pegs of the submitted row, then either handle a win
(disable SUBMIT, report attempts and elapsed time), handle a loss on the
last row (disable SUBMIT, reveal the code), or increment the current row.
The play-again dialog and restart callback belong to the external
`GameHandler` collaborator and replace the instance wholesale, so they are
outside this record. -/
def handle_submit (e : Engine) (guess : List String) (now : Int) :
    Option (Engine × SubmitResult) :=
  match e.currentRow with
  | none => none
  | some r =>
    if guess.all fun c => decide (c ∈ COLORS) then
      match e.secretCode with
      | none => none
      | some secret =>
        let score := evaluate secret guess
        let hasWon := score.exact == 4
        match (e.feedback.get? (ROWS - 1 - r)).bind
            (updateFeedback score.exact score.colorOnly) with
        | none => none
        | some newRow =>
          let fb := e.feedback.set (ROWS - 1 - r) newRow
          if hasWon then
            match e.startTime with
            | none => none
            | some t0 =>
              some ({ e with submitEnabled := false, feedback := fb },
                .won (r + 1) (now - t0))
          else if r == ROWS - 1 then
            some ({ e with submitEnabled := false, feedback := fb },
              .lost secret)
          else
            some ({ e with currentRow := incrementCurrentRow (some r), feedback := fb },
              .continued)
    else some (e, .invalid)

/-- A click on the SUBMIT button: Tk only invokes `handle_submit` while the
button is active; a click on the disabled button runs nothing and leaves
the instance untouched. -/
def pressSubmit (e : Engine) (guess : List String) (now : Int) :
    Option (Engine × SubmitResult) :=
  if e.submitEnabled then handle_submit e guess now
  else some (e, .gameOver)

/-- A sequence of `handle_submit` invocations, threading the engine state. -/
def handleMany (e : Engine) : List (List String × Int) → Option Engine
  | [] => some e
  | (g, t) :: rest =>
    match handle_submit e g t with
    | none => none
    | some (e', _) => handleMany e' rest

/-- A sequence of SUBMIT-button clicks, threading the engine state. -/
def submitMany (e : Engine) : List (List String × Int) → Option Engine
  | [] => some e
  | (g, t) :: rest =>
    match pressSubmit e g t with
    | none => none
    | some (e', _) => submitMany e' rest

/-- A choice oracle that always picks palette index 0 (`red`). -/
def zeroChoice : Nat → Fin COLORS.length := fun _ => ⟨0, by decide⟩

/-- A concrete engine in progress on row 0, as produced by starting a fresh
game with an all-red secret at time 2. -/
def runningEngine : Engine :=
  { currentRow := some 0
    secretCode := some ["red", "red", "red", "red"]
    startTime := some 2
    startEnabled := false
    submitEnabled := true
    feedback := List.replicate ROWS (List.replicate 4 "black") }

/-- The concrete engine reached from `runningEngine` by submitting the
winning guess at time 5: SUBMIT disabled, four red pegs on the bottom row. -/
def terminalEngine : Engine :=
  { runningEngine with
    submitEnabled := false
    feedback := (List.replicate ROWS (List.replicate 4 "black")).set 14
      ["red", "red", "red", "red"] }

/-! ### Scoring lemmas -/

theorem matchedList_le_secret (g s : List String) :
    (↑(matchedList g s) : Multiset String) ≤ ↑s := by
  induction g generalizing s with
  | nil => cases s <;> simp [matchedList]
  | cons a g ih =>
    cases s with
    | nil => simp [matchedList]
    | cons b s =>
      by_cases hab : a = b
      · subst hab
        have he : matchedList (a :: g) (a :: s) = a :: matchedList g s := by
          simp [matchedList]
        rw [he, ← Multiset.cons_coe, ← Multiset.cons_coe]
        exact Multiset.cons_le_cons _ (ih s)
      · have he : matchedList (a :: g) (b :: s) = matchedList g s := by
          simp [matchedList, hab]
        rw [he, ← Multiset.cons_coe]
        exact le_trans (ih s) (Multiset.le_cons_self _ _)

theorem matchedList_le_guess (g s : List String) :
    (↑(matchedList g s) : Multiset String) ≤ ↑g := by
  induction g generalizing s with
  | nil => cases s <;> simp [matchedList]
  | cons a g ih =>
    cases s with
    | nil => simp [matchedList]
    | cons b s =>
      by_cases hab : a = b
      · subst hab
        have he : matchedList (a :: g) (a :: s) = a :: matchedList g s := by
          simp [matchedList]
        rw [he, ← Multiset.cons_coe, ← Multiset.cons_coe]
        exact Multiset.cons_le_cons _ (ih s)
      · have he : matchedList (a :: g) (b :: s) = matchedList g s := by
          simp [matchedList, hab]
        rw [he, ← Multiset.cons_coe]
        exact le_trans (ih s) (Multiset.le_cons_self _ _)

theorem matched_add_unmatched (g s : List String) (h : g.length = s.length) :
    (↑(matchedList g s) : Multiset String) + ↑(unmatchedList g s) = ↑g := by
  induction g generalizing s with
  | nil => cases s <;> simp [matchedList, unmatchedList]
  | cons a g ih =>
    cases s with
    | nil => simp at h
    | cons b s =>
      simp only [List.length_cons, Nat.succ.injEq] at h
      by_cases hab : a = b
      · subst hab
        have he1 : matchedList (a :: g) (a :: s) = a :: matchedList g s := by
          simp [matchedList]
        have he2 : unmatchedList (a :: g) (a :: s) = unmatchedList g s := by
          simp [unmatchedList]
        rw [he1, he2, ← Multiset.cons_coe, Multiset.cons_add, ih s h, Multiset.cons_coe]
      · have he1 : matchedList (a :: g) (b :: s) = matchedList g s := by
          simp [matchedList, hab]
        have he2 : unmatchedList (a :: g) (b :: s) = a :: unmatchedList g s := by
          simp [unmatchedList, hab]
        rw [he1, he2, ← Multiset.cons_coe, Multiset.add_cons, ih s h, Multiset.cons_coe]

theorem specFirstPass_exact (g s r : List String) :
    (specFirstPass g s r).exact = (matchedList g s).length := by
  induction g generalizing s r with
  | nil => cases s <;> simp [specFirstPass, matchedList]
  | cons a g ih =>
    cases s with
    | nil => simp [specFirstPass, matchedList]
    | cons b s =>
      by_cases hab : a = b <;> simp [specFirstPass, matchedList, hab, ih]

theorem specFirstPass_settled (g s r : List String) :
    (specFirstPass g s r).settled = List.zipWith (fun a b => decide (a = b)) g s := by
  induction g generalizing s r with
  | nil => cases s <;> simp [specFirstPass]
  | cons a g ih =>
    cases s with
    | nil => simp [specFirstPass]
    | cons b s =>
      by_cases hab : a = b <;> simp [specFirstPass, hab, ih]

theorem erase_sub_eq (r m : Multiset String) (a : String) :
    r.erase a - m = r - (a ::ₘ m) := by
  rw [← Multiset.sub_singleton, tsub_tsub, Multiset.singleton_add]

theorem specFirstPass_remaining (g s r : List String)
    (h : (↑(matchedList g s) : Multiset String) ≤ ↑r) :
    (↑(specFirstPass g s r).remaining : Multiset String) = ↑r - ↑(matchedList g s) := by
  induction g generalizing s r with
  | nil => cases s <;> simp [specFirstPass, matchedList]
  | cons a g ih =>
    cases s with
    | nil => simp [specFirstPass, matchedList]
    | cons b s =>
      by_cases hab : a = b
      · subst hab
        have hm : matchedList (a :: g) (a :: s) = a :: matchedList g s := by
          simp [matchedList]
        rw [hm, ← Multiset.cons_coe] at h
        have h' : (↑(matchedList g s) : Multiset String) ≤ ↑(r.erase a) := by
          rw [← Multiset.coe_erase]
          have h2 := Multiset.erase_le_erase a h
          rwa [Multiset.erase_cons_head] at h2
        have he : specFirstPass (a :: g) (a :: s) r =
            ⟨(specFirstPass g s (r.erase a)).exact + 1,
              true :: (specFirstPass g s (r.erase a)).settled,
              (specFirstPass g s (r.erase a)).remaining⟩ := by
          simp [specFirstPass]
        rw [he, hm]
        show (↑(specFirstPass g s (r.erase a)).remaining : Multiset String)
          = ↑r - ↑(a :: matchedList g s)
        rw [ih s (r.erase a) h', ← Multiset.coe_erase, erase_sub_eq, Multiset.cons_coe]
      · have hm : matchedList (a :: g) (b :: s) = matchedList g s := by
          simp [matchedList, hab]
        rw [hm] at h
        have he : specFirstPass (a :: g) (b :: s) r =
            ⟨(specFirstPass g s r).exact, false :: (specFirstPass g s r).settled,
              (specFirstPass g s r).remaining⟩ := by
          simp [specFirstPass, hab]
        rw [he, hm]
        exact ih s r h

theorem firstPass_eq_spec (g s r : List String)
    (h : (↑(matchedList g s) : Multiset String) ≤ ↑r) :
    firstPass g s r = ⟨(specFirstPass g s r).exact, (specFirstPass g s r).settled,
      (specFirstPass g s r).remaining, 0⟩ := by
  induction g generalizing s r with
  | nil => cases s <;> simp [firstPass, specFirstPass]
  | cons a g ih =>
    cases s with
    | nil => simp [firstPass, specFirstPass]
    | cons b s =>
      by_cases hab : a = b
      · subst hab
        have hm : matchedList (a :: g) (a :: s) = a :: matchedList g s := by
          simp [matchedList]
        rw [hm, ← Multiset.cons_coe] at h
        have hmem : a ∈ r := by
          rw [← Multiset.mem_coe]
          exact Multiset.mem_of_le h (Multiset.mem_cons_self _ _)
        have h' : (↑(matchedList g s) : Multiset String) ≤ ↑(r.erase a) := by
          rw [← Multiset.coe_erase]
          have h2 := Multiset.erase_le_erase a h
          rwa [Multiset.erase_cons_head] at h2
        have hrf : removeFirst a r = some (r.erase a) := by
          simp [removeFirst, hmem]
        have he : firstPass (a :: g) (a :: s) r =
            ⟨(firstPass g s (r.erase a)).exact + 1,
              true :: (firstPass g s (r.erase a)).tracker,
              (firstPass g s (r.erase a)).remaining,
              (firstPass g s (r.erase a)).errors⟩ := by
          simp [firstPass, hrf]
        have hes : specFirstPass (a :: g) (a :: s) r =
            ⟨(specFirstPass g s (r.erase a)).exact + 1,
              true :: (specFirstPass g s (r.erase a)).settled,
              (specFirstPass g s (r.erase a)).remaining⟩ := by
          simp [specFirstPass]
        rw [he, hes, ih _ _ h']
      · have hm : matchedList (a :: g) (b :: s) = matchedList g s := by
          simp [matchedList, hab]
        rw [hm] at h
        have he : firstPass (a :: g) (b :: s) r =
            ⟨(firstPass g s r).exact, false :: (firstPass g s r).tracker,
              (firstPass g s r).remaining, (firstPass g s r).errors⟩ := by
          simp [firstPass, hab]
        have hes : specFirstPass (a :: g) (b :: s) r =
            ⟨(specFirstPass g s r).exact, false :: (specFirstPass g s r).settled,
              (specFirstPass g s r).remaining⟩ := by
          simp [specFirstPass, hab]
        rw [he, hes, ih _ _ h]

theorem secondPass_eq_spec (g : List String) (t : List Bool) (r : List String) :
    secondPass g t r = ⟨(specSecondPass g t r).1, (specSecondPass g t r).2, 0⟩ := by
  induction g generalizing t r with
  | nil => cases t <;> simp [secondPass, specSecondPass]
  | cons a g ih =>
    cases t with
    | nil => simp [secondPass, specSecondPass]
    | cons b ts =>
      cases b
      · by_cases hmem : a ∈ r
        · have hrf : removeFirst a r = some (r.erase a) := by
            simp [removeFirst, hmem]
          simp [secondPass, specSecondPass, hrf, hmem, ih]
        · simp [secondPass, specSecondPass, hmem, ih]
      · simp [secondPass, specSecondPass, ih]

theorem specSecondPass_zipWith (g s r : List String) :
    specSecondPass g (List.zipWith (fun a b => decide (a = b)) g s) r
      = removeCount (unmatchedList g s) r := by
  induction g generalizing s r with
  | nil => simp [specSecondPass, removeCount, unmatchedList]
  | cons a g ih =>
    cases s with
    | nil => simp [specSecondPass, removeCount, unmatchedList]
    | cons b s =>
      by_cases hab : a = b
      · simp [specSecondPass, unmatchedList, hab, ih]
      · by_cases hmem : a ∈ r <;>
          simp [specSecondPass, removeCount, unmatchedList, hab, hmem, ih]

theorem removeCount_card (us r : List String) :
    (removeCount us r).1 = Multiset.card ((↑us : Multiset String) ∩ ↑r) := by
  induction us generalizing r with
  | nil => simp [removeCount]
  | cons u us ih =>
    by_cases hmem : u ∈ r
    · have hm : u ∈ (↑r : Multiset String) := Multiset.mem_coe.mpr hmem
      have he : removeCount (u :: us) r = ((removeCount us (r.erase u)).1 + 1,
          (removeCount us (r.erase u)).2) := by
        simp [removeCount, hmem]
      rw [he, ← Multiset.cons_coe, Multiset.cons_inter_of_pos _ hm]
      simp [ih, Multiset.coe_erase]
    · have hm : u ∉ (↑r : Multiset String) := fun hc => hmem (Multiset.mem_coe.mp hc)
      have he : removeCount (u :: us) r = removeCount us r := by
        simp [removeCount, hmem]
      rw [he, ← Multiset.cons_coe, Multiset.cons_inter_of_neg _ hm]
      exact ih r

theorem evaluate_exact (secret guess : List String) :
    (evaluate secret guess).exact = (matchedList guess secret).length := by
  have h := matchedList_le_secret guess secret
  simp [evaluate, firstPass_eq_spec _ _ _ h, specFirstPass_exact]

theorem evaluate_errors_eq_zero (secret guess : List String) :
    (evaluate secret guess).errors = 0 := by
  have h := matchedList_le_secret guess secret
  simp [evaluate, firstPass_eq_spec _ _ _ h, secondPass_eq_spec]

theorem evaluate_eq_specScore (secret guess : List String) :
    ((evaluate secret guess).exact, (evaluate secret guess).colorOnly)
      = specScore secret guess := by
  have h := matchedList_le_secret guess secret
  simp [evaluate, specScore, firstPass_eq_spec _ _ _ h, secondPass_eq_spec]

theorem evaluate_colorOnly (secret guess : List String) :
    (evaluate secret guess).colorOnly
      = (removeCount (unmatchedList guess secret)
          (specFirstPass guess secret secret).remaining).1 := by
  have h := matchedList_le_secret guess secret
  simp [evaluate, firstPass_eq_spec _ _ _ h, secondPass_eq_spec, specFirstPass_settled,
    specSecondPass_zipWith]

theorem sub_inter_sub (x y m : Multiset String) : (x - m) ∩ (y - m) = x ∩ y - m := by
  refine Multiset.ext.mpr fun a => ?_
  simp only [Multiset.count_inter, Multiset.count_sub]
  omega

theorem evaluate_total_eq_inter_card (secret guess : List String)
    (h : guess.length = secret.length) :
    (evaluate secret guess).exact + (evaluate secret guess).colorOnly
      = Multiset.card ((↑secret : Multiset String) ∩ ↑guess) := by
  have hle := matchedList_le_secret guess secret
  have hleg := matchedList_le_guess guess secret
  have hrem := specFirstPass_remaining guess secret secret hle
  have hunm : (↑(unmatchedList guess secret) : Multiset String)
      = ↑guess - ↑(matchedList guess secret) := by
    rw [← matched_add_unmatched guess secret h, add_tsub_cancel_left]
  have hinf : (↑(matchedList guess secret) : Multiset String) ≤ ↑guess ∩ ↑secret :=
    Multiset.le_inter hleg hle
  have hcard := Multiset.card_le_card hinf
  rw [Multiset.coe_card] at hcard
  have hco : Multiset.card ((↑secret : Multiset String) ∩ ↑guess)
      = Multiset.card ((↑guess : Multiset String) ∩ ↑secret) := by
    rw [Multiset.inter_comm]
  rw [evaluate_exact, evaluate_colorOnly, removeCount_card, hrem, hunm, sub_inter_sub,
    Multiset.card_sub hinf, Multiset.coe_card, hco]
  omega
/-! ### Feedback-peg lemmas -/

theorem paintLabels_some (color : String) (count idx : Nat) (labels : List String)
    (h : idx + count ≤ labels.length) :
    ∃ l', paintLabels color count idx labels = some l' ∧ l'.length = labels.length := by
  induction count generalizing idx labels with
  | zero => exact ⟨labels, rfl, rfl⟩
  | succ k ih =>
    have hlt : idx < labels.length := by omega
    have hlen : (labels.set idx color).length = labels.length := List.length_set labels idx color
    obtain ⟨l', h1, h2⟩ := ih (idx + 1) (labels.set idx color) (by rw [hlen]; omega)
    refine ⟨l', ?_, by rw [h2, hlen]⟩
    simp [paintLabels, hlt, h1]

theorem updateFeedback_some (exact colorOnly : Nat) (labels : List String)
    (h : exact + colorOnly ≤ labels.length) :
    ∃ l', updateFeedback exact colorOnly labels = some l'
      ∧ l'.length = labels.length := by
  obtain ⟨l1, h1, hl1⟩ := paintLabels_some "red" exact 0 labels (by omega)
  obtain ⟨l2, h2, hl2⟩ := paintLabels_some "white" colorOnly exact l1 (by omega)
  exact ⟨l2, by simp [updateFeedback, h1, h2], by rw [hl2, hl1]⟩

/-! ### Permutation lemmas -/

theorem zip_ofFn {α β : Type} :
    ∀ (n : Nat) (f : Fin n → α) (g : Fin n → β),
      (List.ofFn f).zip (List.ofFn g) = List.ofFn fun i => (f i, g i)
  | 0, _, _ => by simp
  | n + 1, f, g => by simp [List.ofFn_succ, zip_ofFn n]

theorem finRange_map_perm (n : Nat) (σ : Equiv.Perm (Fin n)) :
    ((List.finRange n).map σ).Perm (List.finRange n) := by
  apply List.perm_of_nodup_nodup_toFinset_eq
  · exact (List.nodup_finRange n).map σ.injective
  · exact List.nodup_finRange n
  · ext x
    simp only [List.mem_toFinset, List.mem_finRange, iff_true]
    exact List.mem_map.mpr ⟨σ.symm x, List.mem_finRange _, σ.apply_symm_apply x⟩

theorem ofFn_comp_perm {α : Type} (n : Nat) (σ : Equiv.Perm (Fin n)) (f : Fin n → α) :
    (List.ofFn fun i => f (σ i)).Perm (List.ofFn f) := by
  rw [List.ofFn_eq_map, List.ofFn_eq_map]
  have h := (finRange_map_perm n σ).map f
  rwa [List.map_map] at h

theorem matchedList_length_eq_countP (g s : List String) :
    (matchedList g s).length
      = List.countP (fun p => decide (p.1 = p.2)) (List.zip g s) := by
  induction g generalizing s with
  | nil => cases s <;> simp [matchedList]
  | cons a g ih =>
    cases s with
    | nil => simp [matchedList]
    | cons b s =>
      by_cases hab : a = b <;>
        simp [matchedList, List.zip_cons_cons, List.countP_cons, hab, ih]

/-! ### Claim theorems: scoring -/

/-- Claim C1: for every secret code of length `COLUMNS` and every submitted
guess of length `COLUMNS` whose elements are all recognized colors, the
score computed by the submission evaluation of `handle_submit` equals the
score of the spec's two-pass reference algorithm (first pass counting
positional matches and removing the matched value from the working copy,
second pass counting remaining color matches over unsettled positions). -/
theorem submit_score_eq_spec_two_pass (S G : List String)
    (hs : S.length = COLUMNS) (hg : G.length = COLUMNS)
    (hv : ∀ c ∈ G, c ∈ COLORS) :
    ((evaluate S G).exact, (evaluate S G).colorOnly) = specScore S G :=
  evaluate_eq_specScore S G

/-- Witness for C1 on the duplicate-color example of spec §8. -/
theorem submit_score_eq_spec_two_pass_witness :
    ((evaluate ["red", "red", "blue", "green"] ["red", "blue", "red", "yellow"]).exact,
      (evaluate ["red", "red", "blue", "green"] ["red", "blue", "red", "yellow"]).colorOnly)
      = specScore ["red", "red", "blue", "green"] ["red", "blue", "red", "yellow"] :=
  submit_score_eq_spec_two_pass _ _ (by decide) (by decide) (by decide)

/-- Claim C3: for every secret code `S` and guess `G` of the same length,
the sum of exact matches and color matches computed by the evaluation is at
most the length of the secret: no color occurrence of the secret is counted
twice across the two passes. -/
theorem score_sum_le_secret_length (S G : List String) (h : G.length = S.length) :
    (evaluate S G).exact + (evaluate S G).colorOnly ≤ S.length := by
  rw [evaluate_total_eq_inter_card S G h]
  have hc := Multiset.card_le_card
    (Multiset.inter_le_left (↑S : Multiset String) ↑G)
  rwa [Multiset.coe_card] at hc

/-- Witness for C3 on the duplicate-color example of spec §8. -/
theorem score_sum_le_secret_length_witness :
    (evaluate ["red", "red", "blue", "green"] ["red", "blue", "red", "yellow"]).exact
      + (evaluate ["red", "red", "blue", "green"] ["red", "blue", "red", "yellow"]).colorOnly
      ≤ (["red", "red", "blue", "green"] : List String).length :=
  score_sum_le_secret_length _ _ (by decide)

/-- Claim C9: for every secret code and every valid full-length guess, the
`except ValueError` branches of both evaluation loops are unreachable: the
first pass only removes a matched color that is still present in the
remaining working copy, and the second pass removal is guarded by a
membership test, so the diagnostic error count of both passes is zero. -/
theorem error_branch_unreachable (S G : List String)
    (hs : S.length = COLUMNS) (hg : G.length = COLUMNS)
    (hv : ∀ c ∈ G, c ∈ COLORS) :
    (firstPass G S S).errors = 0
      ∧ (secondPass G (firstPass G S S).tracker (firstPass G S S).remaining).errors = 0 := by
  constructor
  · rw [firstPass_eq_spec _ _ _ (matchedList_le_secret G S)]
  · rw [secondPass_eq_spec]

/-- Witness for C9 on the duplicate-color example of spec §8. -/
theorem error_branch_unreachable_witness :
    (firstPass ["red", "blue", "red", "yellow"] ["red", "red", "blue", "green"]
        ["red", "red", "blue", "green"]).errors = 0
      ∧ (secondPass ["red", "blue", "red", "yellow"]
          (firstPass ["red", "blue", "red", "yellow"] ["red", "red", "blue", "green"]
            ["red", "red", "blue", "green"]).tracker
          (firstPass ["red", "blue", "red", "yellow"] ["red", "red", "blue", "green"]
            ["red", "red", "blue", "green"]).remaining).errors = 0 :=
  error_branch_unreachable _ _ (by decide) (by decide) (by decide)

/-- Claim C4: applying the same permutation of positions to both the secret
and the guess leaves the computed pair (exact matches, color matches)
unchanged. -/
theorem score_invariant_under_joint_permutation (n : Nat) (σ : Equiv.Perm (Fin n))
    (S G : Fin n → String) :
    ((evaluate (List.ofFn S) (List.ofFn G)).exact,
        (evaluate (List.ofFn S) (List.ofFn G)).colorOnly)
      = ((evaluate (List.ofFn fun i => S (σ i)) (List.ofFn fun i => G (σ i))).exact,
        (evaluate (List.ofFn fun i => S (σ i)) (List.ofFn fun i => G (σ i))).colorOnly) := by
  have hperm : (List.ofFn fun i => (G (σ i), S (σ i))).Perm
      (List.ofFn fun i => (G i, S i)) :=
    ofFn_comp_perm n σ fun i => (G i, S i)
  have hex : (evaluate (List.ofFn fun i => S (σ i)) (List.ofFn fun i => G (σ i))).exact
      = (evaluate (List.ofFn S) (List.ofFn G)).exact := by
    rw [evaluate_exact, evaluate_exact, matchedList_length_eq_countP,
      matchedList_length_eq_countP, zip_ofFn, zip_ofFn]
    exact hperm.countP_eq _
  have hS : ((List.ofFn fun i => S (σ i) : List String) : Multiset String)
      = ↑(List.ofFn S) := Multiset.coe_eq_coe.mpr (ofFn_comp_perm n σ S)
  have hG : ((List.ofFn fun i => G (σ i) : List String) : Multiset String)
      = ↑(List.ofFn G) := Multiset.coe_eq_coe.mpr (ofFn_comp_perm n σ G)
  have ht1 := evaluate_total_eq_inter_card (List.ofFn S) (List.ofFn G) (by simp)
  have ht2 := evaluate_total_eq_inter_card (List.ofFn fun i => S (σ i))
    (List.ofFn fun i => G (σ i)) (by simp)
  rw [hS, hG] at ht2
  rw [Prod.mk.injEq]
  exact ⟨hex.symm, by omega⟩

example : evaluate ["red", "red", "blue", "green"] ["red", "blue", "red", "yellow"] =
    ⟨1, 2, 0⟩ := by decide

example : specScore ["red", "red", "blue", "green"] ["red", "blue", "red", "yellow"] =
    (1, 2) := by decide

example : evaluate ["red", "blue", "green", "yellow"] ["red", "blue", "green", "yellow"] =
    ⟨4, 0, 0⟩ := by decide

/-! ### State-machine lemmas -/

theorem evaluate_sum_le_four (secret guess : List String)
    (hs : secret.length = COLUMNS) (hg : guess.length = COLUMNS) :
    (evaluate secret guess).exact + (evaluate secret guess).colorOnly ≤ 4 := by
  have h4 := evaluate_total_eq_inter_card secret guess (by rw [hs, hg])
  have h5 := Multiset.card_le_card
    (Multiset.inter_le_left (↑secret : Multiset String) ↑guess)
  rw [Multiset.coe_card] at h5
  have hs4 : secret.length = 4 := hs
  omega

theorem handle_submit_frame (e : Engine) (guess : List String) (now : Int)
    (e' : Engine) (res : SubmitResult)
    (h : handle_submit e guess now = some (e', res)) :
    e'.secretCode = e.secretCode ∧ e'.startTime = e.startTime
      ∧ e'.startEnabled = e.startEnabled := by
  simp only [handle_submit] at h
  split at h
  · exact absurd h (by simp)
  · split at h
    · split at h
      · exact absurd h (by simp)
      · split at h
        · exact absurd h (by simp)
        · split at h
          · split at h
            · exact absurd h (by simp)
            · simp only [Option.some.injEq, Prod.mk.injEq] at h
              obtain ⟨rfl, -⟩ := h
              exact ⟨rfl, rfl, rfl⟩
          · split at h
            · simp only [Option.some.injEq, Prod.mk.injEq] at h
              obtain ⟨rfl, -⟩ := h
              exact ⟨rfl, rfl, rfl⟩
            · simp only [Option.some.injEq, Prod.mk.injEq] at h
              obtain ⟨rfl, -⟩ := h
              exact ⟨rfl, rfl, rfl⟩
    · simp only [Option.some.injEq, Prod.mk.injEq] at h
      obtain ⟨rfl, -⟩ := h
      exact ⟨rfl, rfl, rfl⟩

theorem handle_submit_terminal_disables (e : Engine) (guess : List String) (now : Int)
    (e' : Engine) (res : SubmitResult)
    (h : handle_submit e guess now = some (e', res))
    (hterm : (∃ a t, res = .won a t) ∨ ∃ c, res = .lost c) :
    e'.submitEnabled = false := by
  simp only [handle_submit] at h
  split at h
  · exact absurd h (by simp)
  · split at h
    · split at h
      · exact absurd h (by simp)
      · split at h
        · exact absurd h (by simp)
        · split at h
          · split at h
            · exact absurd h (by simp)
            · simp only [Option.some.injEq, Prod.mk.injEq] at h
              obtain ⟨rfl, -⟩ := h
              rfl
          · split at h
            · simp only [Option.some.injEq, Prod.mk.injEq] at h
              obtain ⟨rfl, -⟩ := h
              rfl
            · simp only [Option.some.injEq, Prod.mk.injEq] at h
              obtain ⟨-, hres⟩ := h
              rcases hterm with ⟨a, t, hw⟩ | ⟨c, hl⟩ <;> rw [← hres] at * <;> simp_all
    · simp only [Option.some.injEq, Prod.mk.injEq] at h
      obtain ⟨-, hres⟩ := h
      rcases hterm with ⟨a, t, hw⟩ | ⟨c, hl⟩ <;> rw [← hres] at * <;> simp_all

theorem handle_submit_invalid (e : Engine) (guess : List String) (now : Int) (r : Nat)
    (hrow : e.currentRow = some r) (hbad : ∃ c ∈ guess, c ∉ COLORS) :
    handle_submit e guess now = some (e, .invalid) := by
  have h1 : ¬(guess.all fun c => decide (c ∈ COLORS)) = true := by
    rw [List.all_eq_true]
    intro hall
    obtain ⟨c, hc, hnc⟩ := hbad
    exact hnc (by simpa using hall c hc)
  simp [handle_submit, hrow, h1]

/-! ### Claim theorems: state machine -/

/-- Claim C2: for a game in progress with a valid full-length guess, the win
check has priority: with `COLUMNS` exact matches the handler reports a win
with `attempts = currentRow + 1` and `elapsed = now - startTime` (even on
the last row); otherwise on the last row it reports a loss revealing the
secret code; otherwise it increments the current row by one and the game
stays in progress. -/
theorem turn_advancement (e : Engine) (guess : List String) (now : Int) (r : Nat)
    (secret : List String) (t0 : Int)
    (hrow : e.currentRow = some r) (hr : r < ROWS)
    (hsec : e.secretCode = some secret) (hs : secret.length = COLUMNS)
    (htime : e.startTime = some t0) (hsub : e.submitEnabled = true)
    (hg : guess.length = COLUMNS) (hvalid : ∀ c ∈ guess, c ∈ COLORS)
    (hfb : e.feedback.length = ROWS) (hfb4 : ∀ row ∈ e.feedback, row.length = 4) :
    ((evaluate secret guess).exact = COLUMNS →
        ∃ e', handle_submit e guess now = some (e', .won (r + 1) (now - t0))
          ∧ e'.currentRow = some r ∧ e'.secretCode = some secret
          ∧ e'.submitEnabled = false)
      ∧ ((evaluate secret guess).exact ≠ COLUMNS → r = ROWS - 1 →
        ∃ e', handle_submit e guess now = some (e', .lost secret)
          ∧ e'.submitEnabled = false)
      ∧ ((evaluate secret guess).exact ≠ COLUMNS → r ≠ ROWS - 1 →
        ∃ e', handle_submit e guess now = some (e', .continued)
          ∧ e'.currentRow = some (r + 1) ∧ e'.submitEnabled = true) := by
  have hva : (guess.all fun c => decide (c ∈ COLORS)) = true := by
    rw [List.all_eq_true]
    intro c hc
    simpa using hvalid c hc
  have hidx : ROWS - 1 - r < e.feedback.length := by
    rw [hfb]
    have h15 : ROWS = 15 := rfl
    omega
  obtain ⟨L, hget, hL4⟩ : ∃ L, e.feedback[ROWS - 1 - r]? = some L ∧ L.length = 4 := by
    refine ⟨e.feedback.get ⟨ROWS - 1 - r, hidx⟩, ?_, hfb4 _ (List.get_mem _ _ _)⟩
    rw [← List.get?_eq_getElem?]
    exact List.get?_eq_get hidx
  have hec := evaluate_sum_le_four secret guess hs hg
  obtain ⟨l', hupd, hlen⟩ := updateFeedback_some (evaluate secret guess).exact
    (evaluate secret guess).colorOnly L (by rw [hL4]; exact hec)
  refine ⟨?_, ?_, ?_⟩
  · intro hex
    have hex4 : (evaluate secret guess).exact = 4 := hex
    rw [hex4] at hupd
    refine ⟨{ e with
      submitEnabled := false
      feedback := e.feedback.set (ROWS - 1 - r) l' }, ?_, by simpa using hrow,
      by simpa using hsec, rfl⟩
    simp [handle_submit, hrow, hva, hsec, hget, hupd, hex4, htime]
  · intro hex hlast
    have hbeq : ((evaluate secret guess).exact == 4) = false :=
      beq_eq_false_iff_ne.mpr hex
    have hbt : (r == ROWS - 1) = true := beq_iff_eq.mpr hlast
    refine ⟨{ e with
      submitEnabled := false
      feedback := e.feedback.set (ROWS - 1 - r) l' }, ?_, rfl⟩
    simp [handle_submit, hrow, hva, hsec, hget, hupd, hbeq, hbt]
  · intro hex hne
    have hbeq : ((evaluate secret guess).exact == 4) = false :=
      beq_eq_false_iff_ne.mpr hex
    have hbne : (r == ROWS - 1) = false := beq_eq_false_iff_ne.mpr hne
    refine ⟨{ e with
      currentRow := some (r + 1)
      feedback := e.feedback.set (ROWS - 1 - r) l' }, ?_, rfl, by simpa using hsub⟩
    simp [handle_submit, hrow, hva, hsec, hget, hupd, hbeq, hbne, incrementCurrentRow]

/-- Witness for C2: the winning guess on `runningEngine` reports
`won 1 (5 - 2)`. -/
theorem turn_advancement_witness :
    ((evaluate ["red", "red", "red", "red"] ["red", "red", "red", "red"]).exact = COLUMNS →
        ∃ e', handle_submit runningEngine ["red", "red", "red", "red"] 5
            = some (e', .won (0 + 1) (5 - 2))
          ∧ e'.currentRow = some 0
          ∧ e'.secretCode = some ["red", "red", "red", "red"]
          ∧ e'.submitEnabled = false)
      ∧ ((evaluate ["red", "red", "red", "red"] ["red", "red", "red", "red"]).exact ≠ COLUMNS →
          0 = ROWS - 1 →
        ∃ e', handle_submit runningEngine ["red", "red", "red", "red"] 5
            = some (e', .lost ["red", "red", "red", "red"])
          ∧ e'.submitEnabled = false)
      ∧ ((evaluate ["red", "red", "red", "red"] ["red", "red", "red", "red"]).exact ≠ COLUMNS →
          0 ≠ ROWS - 1 →
        ∃ e', handle_submit runningEngine ["red", "red", "red", "red"] 5
            = some (e', .continued)
          ∧ e'.currentRow = some (0 + 1) ∧ e'.submitEnabled = true) :=
  turn_advancement runningEngine ["red", "red", "red", "red"] 5 0
    ["red", "red", "red", "red"] 2 rfl (by decide) rfl (by decide) rfl rfl
    (by decide) (by decide) (by decide) (by decide)

/-- Claim C5: while a game is in progress, a submission containing an
unrecognized color (in particular any incomplete row, whose unset buttons
still carry a non-palette background) is rejected before scoring with the
invalid-submission error box, and the engine state is left entirely
unchanged; repeated invalid submissions never change the state. -/
theorem invalid_guess_leaves_state_unchanged (e : Engine) (guess : List String)
    (now : Int) (r : Nat)
    (hrow : e.currentRow = some r) (hg : guess.length = COLUMNS)
    (hbad : ∃ c ∈ guess, c ∉ COLORS) :
    handle_submit e guess now = some (e, .invalid)
      ∧ ∀ inputs : List (List String × Int),
          (∀ p ∈ inputs, ∃ c ∈ p.1, c ∉ COLORS) →
          handleMany e inputs = some e := by
  refine ⟨handle_submit_invalid e guess now r hrow hbad, ?_⟩
  intro inputs
  induction inputs with
  | nil => intro _; rfl
  | cons p rest ih =>
    intro hall
    obtain ⟨g2, t2⟩ := p
    have h2 := handle_submit_invalid e g2 t2 r hrow
      (hall (g2, t2) (List.mem_cons_self _ _))
    simp only [handleMany, h2]
    exact ih fun q hq => hall q (List.mem_cons_of_mem _ hq)

/-- Witness for C5: an incomplete row (one button still gray) is rejected
and two further invalid submissions leave `runningEngine` unchanged. -/
theorem invalid_guess_leaves_state_unchanged_witness :
    handle_submit runningEngine ["red", "red", "red", "gray"] 5
        = some (runningEngine, .invalid)
      ∧ handleMany runningEngine
          [(["gray", "gray", "gray", "gray"], 6), (["red", "red", "red", "gray"], 7)]
        = some runningEngine :=
  ⟨(invalid_guess_leaves_state_unchanged runningEngine ["red", "red", "red", "gray"]
      5 0 rfl (by decide) (by decide)).1,
    (invalid_guess_leaves_state_unchanged runningEngine ["red", "red", "red", "gray"]
      5 0 rfl (by decide) (by decide)).2
      [(["gray", "gray", "gray", "gray"], 6), (["red", "red", "red", "gray"], 7)]
      (by decide)⟩

/-- Claim C6: after a submission that ends the game (win or loss), SUBMIT is
disabled, so every subsequent submission attempt runs nothing, mutates no
state, and surfaces as the game-over rejection; the engine never
auto-resets. -/
theorem terminal_state_rejects_submissions (e : Engine) (guess : List String)
    (now : Int) (e' : Engine) (res : SubmitResult)
    (h : handle_submit e guess now = some (e', res))
    (hterm : (∃ a t, res = .won a t) ∨ ∃ c, res = .lost c) :
    (∀ g2 n2, pressSubmit e' g2 n2 = some (e', .gameOver))
      ∧ ∀ inputs, submitMany e' inputs = some e' := by
  have hdis := handle_submit_terminal_disables e guess now e' res h hterm
  constructor
  · intro g2 n2
    simp [pressSubmit, hdis]
  · intro inputs
    induction inputs with
    | nil => rfl
    | cons p rest ih =>
      obtain ⟨g2, t2⟩ := p
      simp only [submitMany, pressSubmit, hdis]
      simpa using ih

/-- Witness for C6 on the concrete winning run from `runningEngine`. -/
theorem terminal_state_rejects_submissions_witness :
    (∀ g2 n2, pressSubmit terminalEngine g2 n2 = some (terminalEngine, .gameOver))
      ∧ ∀ inputs, submitMany terminalEngine inputs = some terminalEngine :=
  terminal_state_rejects_submissions runningEngine ["red", "red", "red", "red"] 5
    terminalEngine (.won 1 3) (by decide) (Or.inl ⟨1, 3, rfl⟩)

/-- Claim C7: starting a fresh (not-started) engine generates a secret code
of exactly `COLUMNS` colors drawn from the fixed palette (with replacement,
so duplicates are possible), initializes the current row to 0, records the
start time, and moves the game into progress (SUBMIT enabled, START
disabled). -/
theorem start_game_initializes (e : Engine) (choice : Nat → Fin COLORS.length)
    (now : Int) (hfresh : e.currentRow = none) :
    ∃ code, (start_game e choice now).secretCode = some code
      ∧ code.length = COLUMNS ∧ (∀ c ∈ code, c ∈ COLORS)
      ∧ (start_game e choice now).currentRow = some 0
      ∧ (start_game e choice now).startTime = some now
      ∧ (start_game e choice now).submitEnabled = true
      ∧ (start_game e choice now).startEnabled = false
      ∧ ∃ choice2 code2, (start_game e choice2 now).secretCode = some code2
          ∧ ¬code2.Nodup := by
  refine ⟨_, rfl, by simp [COLUMNS], ?_, ?_, rfl, rfl, rfl, ?_⟩
  · intro c hc
    rw [List.mem_map] at hc
    obtain ⟨i, -, rfl⟩ := hc
    exact List.get_mem _ _ _
  · simp [start_game, incrementCurrentRow, hfresh]
  · exact ⟨zeroChoice, _, rfl, by decide⟩

/-- Witness for C7 on the initial engine with the all-red choice oracle. -/
theorem start_game_initializes_witness :
    ∃ code, (start_game initialEngine zeroChoice 7).secretCode = some code
      ∧ code.length = COLUMNS ∧ (∀ c ∈ code, c ∈ COLORS)
      ∧ (start_game initialEngine zeroChoice 7).currentRow = some 0
      ∧ (start_game initialEngine zeroChoice 7).startTime = some 7
      ∧ (start_game initialEngine zeroChoice 7).submitEnabled = true
      ∧ (start_game initialEngine zeroChoice 7).startEnabled = false
      ∧ ∃ choice2 code2, (start_game initialEngine choice2 7).secretCode = some code2
          ∧ ¬code2.Nodup :=
  start_game_initializes initialEngine zeroChoice 7 rfl

/-- Claim C8: for a game in progress, any submission (valid or invalid)
leaves the stored secret code unchanged: the evaluation works on a copy of
the secret, and no branch of the handler writes the secret. -/
theorem secret_code_unchanged_by_submit (e : Engine) (guess : List String)
    (now : Int) (r : Nat) (hrow : e.currentRow = some r)
    (e' : Engine) (res : SubmitResult)
    (h : handle_submit e guess now = some (e', res)) :
    e'.secretCode = e.secretCode :=
  (handle_submit_frame e guess now e' res h).1

/-- Witness for C8 on the concrete winning run from `runningEngine`. -/
theorem secret_code_unchanged_by_submit_witness :
    terminalEngine.secretCode = runningEngine.secretCode :=
  secret_code_unchanged_by_submit runningEngine ["red", "red", "red", "red"] 5 0 rfl
    terminalEngine (.won 1 3) (by decide)

/-- Claim C10: the feedback-peg update never indexes past the end of a row's
4 labels: every row of the initial feedback grid has exactly 4 labels, and
since exact plus color matches never exceed 4, the two peg-coloring loops
color at most 4 pegs, so the running label index stays in bounds and the
update succeeds. -/
theorem feedback_pegs_in_bounds (secret guess labels : List String)
    (hs : secret.length = COLUMNS) (hg : guess.length = COLUMNS)
    (hv : ∀ c ∈ guess, c ∈ COLORS) (hlab : labels.length = 4) :
    (∀ row ∈ initialEngine.feedback, row.length = 4)
      ∧ ∃ l', updateFeedback (evaluate secret guess).exact
          (evaluate secret guess).colorOnly labels = some l' ∧ l'.length = 4 := by
  constructor
  · intro row hrow
    rw [List.eq_of_mem_replicate hrow]
    simp
  · have hec := evaluate_sum_le_four secret guess hs hg
    obtain ⟨l', h1, h2⟩ := updateFeedback_some _ _ labels (by rw [hlab]; exact hec)
    exact ⟨l', h1, by rw [h2, hlab]⟩

/-- Witness for C10 on the duplicate-color example of spec §8. -/
theorem feedback_pegs_in_bounds_witness :
    (∀ row ∈ initialEngine.feedback, row.length = 4)
      ∧ ∃ l', updateFeedback
          (evaluate ["red", "red", "blue", "green"] ["red", "blue", "red", "yellow"]).exact
          (evaluate ["red", "red", "blue", "green"] ["red", "blue", "red", "yellow"]).colorOnly
          ["black", "black", "black", "black"] = some l' ∧ l'.length = 4 :=
  feedback_pegs_in_bounds ["red", "red", "blue", "green"]
    ["red", "blue", "red", "yellow"] ["black", "black", "black", "black"]
    (by decide) (by decide) (by decide) (by decide)

end Mastermind
